import Mathlib

/-!
# Verification of the flowdoc flow-extraction core (`src/flowdoc/parser.py`)

This file gives a shallow embedding of the flow-extraction core of the
`flowdoc` repository and proves the specification claims about it.

* The Python AST fragment that the parser inspects is embedded as the
  mutually inductive types `Expr` / `Kw` / `Stmt` below; a module is a
  `List Stmt` (the module body).
* The mutable visitor `FlowCallVisitor` keeps a single `current_branch`
  slot that is saved on entry to an `if` and restored on exit, so it
  behaves exactly like a value passed downward through the recursion;
  the embedding `visitStmt` / `visitExpr` passes the slot as the `br`
  argument (restoring the slot = returning to the caller's value).
* Python's ambient `warnings.warn` calls are rendered as an explicit
  diagnostics list (`Diag`) returned alongside each result.
* Python `dict` insertion (`d[k] = v`: overwrite in place, keep the
  key's original position, otherwise append) is `dictInsert`.
-/

namespace Flowdoc

/-- Literal constants (`ast.Constant` values) as far as the parser
distinguishes them: a string literal versus any other literal. -/
inductive Const where
  | str (s : String)
  | intC (n : Int)
  | boolC (b : Bool)
  | noneC
deriving DecidableEq, Repr

mutual

/-- Python expressions, restricted to the node kinds the parser inspects:
`Name`, `Attribute`, `Call` (with its line number), `Constant`, `Await`. -/
inductive Expr where
  | name (id : String)
  | attr (value : Expr) (attrName : String)
  | call (lineno : Nat) (func : Expr) (args : List Expr) (keywords : List Kw)
  | const (c : Const)
  | awaitE (value : Expr)

/-- A keyword argument of a call: `ast.keyword` (`arg = none` is `**kwargs`). -/
inductive Kw where
  | mk (arg : Option String) (value : Expr)

/-- Python statements, restricted to the node kinds the parser inspects. -/
inductive Stmt where
  | exprStmt (e : Expr)
  | ifStmt (test : Expr) (body : List Stmt) (orelse : List Stmt)
  | funcDef (isAsync : Bool) (fname : String) (decorators : List Expr) (body : List Stmt)
  | classDef (cname : String) (decorators : List Expr) (body : List Stmt)
  | ret (value : Option Expr)
  | passStmt

end

/-- The keyword name of a `Kw`. -/
def Kw.argName : Kw → Option String
  | .mk a _ => a

/-- The value of a `Kw`. -/
def Kw.val : Kw → Expr
  | .mk _ v => v

/-- Modelled from the spec: `flowdoc/models.py` is not under `src/`.
`Edge` follows §3 of the spec and the constructor calls in `parser.py`:
source step, target step, optional branch label, optional source line. -/
structure Edge where
  from_step : String
  to_step : String
  branch : Option String := none
  line_number : Option Nat := none
deriving DecidableEq, Repr

/-- Modelled from the spec: `flowdoc/models.py` is not under `src/`.
`StepData` follows §3 of the spec and the constructor calls in
`parser.py`: display name, defining identifier, description, optional
docstring, and the detected outgoing calls. -/
structure StepData where
  name : String
  function_name : String
  description : String
  docstring : Option String := none
  calls : List Edge := []
deriving DecidableEq, Repr

/-- Modelled from the spec: `flowdoc/models.py` is not under `src/`.
`FlowData` follows §3 of the spec and the constructor calls in
`parser.py`: name, kind (`"class"` or `"function"`), ordered steps,
ordered edges, description. -/
structure FlowData where
  name : String
  type : String
  steps : List StepData
  edges : List Edge
  description : String
deriving DecidableEq, Repr

/-- Structured rendering of the `warnings.warn` calls in `parser.py`:
either a skipped dynamic decorator argument (naming the argument) or an
unparseable file (naming the file). -/
inductive Diag where
  | dynamicArg (argName : String)
  | cannotParse (path : String)
deriving DecidableEq, Repr

/-- Python `dict` update `d[k] = v`: overwrite in place keeping the key's
original insertion position, otherwise append at the end. -/
def dictInsert {α : Type} (l : List (String × α)) (k : String) (v : α) :
    List (String × α) :=
  match l with
  | [] => [(k, v)]
  | (k', v') :: rest =>
      if k' = k then (k, v) :: rest else (k', v') :: dictInsert rest k v

/-- Python `k in d` followed by `d[k]`: first binding of the key. -/
def dictLookup {α : Type} (l : List (String × α)) (k : String) : Option α :=
  match l with
  | [] => none
  | (k', v) :: rest => if k' = k then some v else dictLookup rest k

/-! ## FlowCallVisitor -/

/-- Candidate call target of `FlowCallVisitor.visit_Call`: a method-style
call on `self` yields the attribute name, a direct call to a bare name
yields that name, anything else yields no candidate. -/
def candidateTarget : Expr → Option String
  | .attr (.name "self") a => some a
  | .attr _ _ => none
  | .name id => some id
  | _ => none

mutual

/-- `FlowCallVisitor` on an expression.  `k` is `decorated_steps`, `br`
is the `current_branch` slot.  A `Call` records an edge when its
candidate target is a nonempty name in `k` (Python
`if target_name and target_name in self.decorated_steps`), then
`generic_visit` descends into `func`, `args`, `keywords` in field order;
`Await` descends transparently into the awaited expression. -/
def visitExpr (k : List String) (br : Option String) : Expr → List Edge
  | .name _ => []
  | .const _ => []
  | .attr v _ => visitExpr k br v
  | .awaitE v => visitExpr k br v
  | .call ln f args kws =>
      (match candidateTarget f with
       | some t =>
           if t ≠ "" ∧ t ∈ k then
             [{ from_step := "", to_step := t, branch := br, line_number := some ln }]
           else []
       | none => []) ++
      visitExpr k br f ++ visitExprs k br args ++ visitKws k br kws

/-- `FlowCallVisitor` on a list of expressions, in order. -/
def visitExprs (k : List String) (br : Option String) : List Expr → List Edge
  | [] => []
  | e :: es => visitExpr k br e ++ visitExprs k br es

/-- `FlowCallVisitor` on a list of keyword arguments (visits the values). -/
def visitKws (k : List String) (br : Option String) : List Kw → List Edge
  | [] => []
  | .mk _ v :: rest => visitExpr k br v ++ visitKws k br rest

/-- `FlowCallVisitor` on a statement.  `visit_If` sets the slot to
`"if"` for the first arm, to `"else"` for the second arm when one
exists, and restores the saved value afterwards; the `test` expression
is never visited.  Function and class definitions are traversed by
`generic_visit` in AST field order (body before decorator list). -/
def visitStmt (k : List String) (br : Option String) : Stmt → List Edge
  | .exprStmt e => visitExpr k br e
  | .ifStmt _ body orelse =>
      visitStmts k (some "if") body ++
        (if orelse.isEmpty then [] else visitStmts k (some "else") orelse)
  | .funcDef _ _ decs body => visitStmts k br body ++ visitExprs k br decs
  | .classDef _ decs body => visitStmts k br body ++ visitExprs k br decs
  | .ret (some e) => visitExpr k br e
  | .ret none => []
  | .passStmt => []

/-- `FlowCallVisitor` on a list of statements, in order. -/
def visitStmts (k : List String) (br : Option String) : List Stmt → List Edge
  | [] => []
  | s :: rest => visitStmt k br s ++ visitStmts k br rest

end

/-- `FlowParser._find_step_calls`: run the visitor over a function
definition node with the slot initially absent. -/
def findStepCalls (k : List String) (fn : Stmt) : List Edge :=
  visitStmt k none fn

/-! ## Specification view: call sites with their enclosing-arm stacks

The spec describes the visitor's branch label as "the arm of the
innermost enclosing conditional".  To state that independently of the
single-slot algorithm, `callSitesS` collects every call expression the
visitor reaches together with the full stack of conditional arms
enclosing it (outermost first); the visitor's label is then the *last*
(innermost) element of that stack. -/

/-- One arm of a conditional: the spec's `then` (first arm) or
`otherwise` (second arm). -/
inductive Arm where
  | first
  | second
deriving DecidableEq, Repr

/-- The source-level label the visitor uses for each arm: `"if"` for the
first (`then`) arm, `"else"` for the second (`otherwise`) arm. -/
def armLabel : Arm → String
  | .first => "if"
  | .second => "else"

/-- A call expression reached by the visitor: the stack of conditional
arms enclosing it (outermost first), its line number, and its callee. -/
structure CallSite where
  arms : List Arm
  lineno : Nat
  func : Expr

/-- The edge the visitor records for a reached call site, if any: the
candidate target must be a nonempty member of the known-step set, and
the branch label is the innermost enclosing arm (last stack entry). -/
def edgeOfCall (k : List String) (c : CallSite) : Option Edge :=
  match candidateTarget c.func with
  | some t =>
      if t ≠ "" ∧ t ∈ k then
        some { from_step := "", to_step := t,
               branch := (c.arms.map armLabel).getLast?,
               line_number := some c.lineno }
      else none
  | none => none

mutual

/-- Call sites reached in an expression, with enclosing-arm stacks. -/
def callSitesE (st : List Arm) : Expr → List CallSite
  | .name _ => []
  | .const _ => []
  | .attr v _ => callSitesE st v
  | .awaitE v => callSitesE st v
  | .call ln f args kws =>
      ⟨st, ln, f⟩ :: (callSitesE st f ++ callSitesEs st args ++ callSitesKws st kws)

/-- Call sites reached in a list of expressions. -/
def callSitesEs (st : List Arm) : List Expr → List CallSite
  | [] => []
  | e :: es => callSitesE st e ++ callSitesEs st es

/-- Call sites reached in a list of keyword arguments. -/
def callSitesKws (st : List Arm) : List Kw → List CallSite
  | [] => []
  | .mk _ v :: rest => callSitesE st v ++ callSitesKws st rest

/-- Call sites reached in a statement.  A conditional pushes `first`
for its first arm and `second` for its second arm; its test is not
traversed. -/
def callSitesS (st : List Arm) : Stmt → List CallSite
  | .exprStmt e => callSitesE st e
  | .ifStmt _ body orelse =>
      callSitesSs (st ++ [.first]) body ++
        (if orelse.isEmpty then [] else callSitesSs (st ++ [.second]) orelse)
  | .funcDef _ _ decs body => callSitesSs st body ++ callSitesEs st decs
  | .classDef _ decs body => callSitesSs st body ++ callSitesEs st decs
  | .ret (some e) => callSitesE st e
  | .ret none => []
  | .passStmt => []

/-- Call sites reached in a list of statements. -/
def callSitesSs (st : List Arm) : List Stmt → List CallSite
  | [] => []
  | s :: rest => callSitesS st s ++ callSitesSs st rest

end

/-- The innermost label of a stack extended by one arm is that arm's label. -/
theorem armStack_concat_getLast (st : List Arm) (a : Arm) :
    (((st ++ [a]).map armLabel)).getLast? = some (armLabel a) := by
  rw [List.map_append]
  exact List.getLast?_concat _

mutual

/-- The visitor on an expression, run with the slot holding the innermost
label of the arm stack `st`, records exactly the edges of the reached
call sites. -/
theorem visitExpr_eq_callSites (k : List String) (st : List Arm) (e : Expr) :
    visitExpr k ((st.map armLabel).getLast?) e =
      (callSitesE st e).filterMap (edgeOfCall k) := by
  cases e with
  | name id => rfl
  | const c => rfl
  | attr v a => exact visitExpr_eq_callSites k st v
  | awaitE v => exact visitExpr_eq_callSites k st v
  | call ln f args kws =>
      rw [visitExpr, callSitesE, List.filterMap_cons, List.filterMap_append,
        List.filterMap_append, visitExpr_eq_callSites k st f,
        visitExprs_eq_callSites k st args, visitKws_eq_callSites k st kws]
      cases hc : candidateTarget f with
      | none => simp [edgeOfCall, hc]
      | some t =>
          by_cases hg : t ≠ "" ∧ t ∈ k
          · simp [edgeOfCall, hc, hg]
          · simp [edgeOfCall, hc, hg]

/-- List version of `visitExpr_eq_callSites`. -/
theorem visitExprs_eq_callSites (k : List String) (st : List Arm) (es : List Expr) :
    visitExprs k ((st.map armLabel).getLast?) es =
      (callSitesEs st es).filterMap (edgeOfCall k) := by
  cases es with
  | nil => rfl
  | cons e rest =>
      rw [visitExprs, callSitesEs, List.filterMap_append,
        visitExpr_eq_callSites k st e, visitExprs_eq_callSites k st rest]

/-- Keyword-argument version of `visitExpr_eq_callSites`. -/
theorem visitKws_eq_callSites (k : List String) (st : List Arm) (kws : List Kw) :
    visitKws k ((st.map armLabel).getLast?) kws =
      (callSitesKws st kws).filterMap (edgeOfCall k) := by
  cases kws with
  | nil => rfl
  | cons kw rest =>
      cases kw with
      | mk a v =>
          rw [visitKws, callSitesKws, List.filterMap_append,
            visitExpr_eq_callSites k st v, visitKws_eq_callSites k st rest]

/-- The visitor on a statement, run with the slot holding the innermost
label of the arm stack `st`, records exactly the edges of the reached
call sites. -/
theorem visitStmt_eq_callSites (k : List String) (st : List Arm) (s : Stmt) :
    visitStmt k ((st.map armLabel).getLast?) s =
      (callSitesS st s).filterMap (edgeOfCall k) := by
  cases s with
  | exprStmt e => exact visitExpr_eq_callSites k st e
  | ifStmt test body orelse =>
      rw [visitStmt, callSitesS, List.filterMap_append]
      have hb : visitStmts k (some "if") body =
          (callSitesSs (st ++ [Arm.first]) body).filterMap (edgeOfCall k) := by
        have := visitStmts_eq_callSites k (st ++ [Arm.first]) body
        rwa [armStack_concat_getLast st Arm.first] at this
      have ho : visitStmts k (some "else") orelse =
          (callSitesSs (st ++ [Arm.second]) orelse).filterMap (edgeOfCall k) := by
        have := visitStmts_eq_callSites k (st ++ [Arm.second]) orelse
        rwa [armStack_concat_getLast st Arm.second] at this
      rw [hb]
      by_cases he : orelse.isEmpty
      · simp [he]
      · simp [he, ho]
  | funcDef a n decs body =>
      rw [visitStmt, callSitesS, List.filterMap_append,
        visitStmts_eq_callSites k st body, visitExprs_eq_callSites k st decs]
  | classDef n decs body =>
      rw [visitStmt, callSitesS, List.filterMap_append,
        visitStmts_eq_callSites k st body, visitExprs_eq_callSites k st decs]
  | ret v =>
      cases v with
      | none => rfl
      | some e => exact visitExpr_eq_callSites k st e
  | passStmt => rfl

/-- List version of `visitStmt_eq_callSites`. -/
theorem visitStmts_eq_callSites (k : List String) (st : List Arm) (ss : List Stmt) :
    visitStmts k ((st.map armLabel).getLast?) ss =
      (callSitesSs st ss).filterMap (edgeOfCall k) := by
  cases ss with
  | nil => rfl
  | cons s rest =>
      rw [visitStmts, callSitesSs, List.filterMap_append,
        visitStmt_eq_callSites k st s, visitStmts_eq_callSites k st rest]

end

/-- The spec's walkthrough example: `step_a` calls `step_b`
unconditionally. -/
def stepAdef : Stmt :=
  .funcDef false "step_a" [.name "step"]
    [.exprStmt (.call 2 (.name "step_b") [] [])]

/-- The spec's walkthrough example: `step_b` calls `step_c` in the first
(`then`) arm and `step_d` in the paired second (`otherwise`) arm. -/
def stepBdef : Stmt :=
  .funcDef false "step_b" [.name "step"]
    [.ifStmt (.name "ok")
      [.exprStmt (.call 5 (.name "step_c") [] [])]
      [.exprStmt (.call 7 (.name "step_d") [] [])]]

/-- C1: every edge the visitor records is labeled by the innermost
enclosing conditional arm at the call site — the visitor's output on a
step body equals, call site by call site, the edges computed from the
full enclosing-arm stack with the branch taken as the *last* (innermost)
stack entry (`"if"` is the source-level label of the spec's `then` arm,
`"else"` of its `otherwise` arm), and the branch is `none` exactly when
the stack of enclosing conditionals is empty.  In particular, on the
spec's example, `step_a → step_b` is unconditional while `step_b`'s
calls are labeled by their arms of the innermost conditional. -/
theorem c1_branch_is_innermost_arm :
    (∀ (k : List String) (body : List Stmt),
        visitStmts k none body = (callSitesSs [] body).filterMap (edgeOfCall k)) ∧
    findStepCalls ["step_a", "step_b", "step_c", "step_d"] stepAdef =
      [{ from_step := "", to_step := "step_b", branch := none, line_number := some 2 }] ∧
    findStepCalls ["step_a", "step_b", "step_c", "step_d"] stepBdef =
      [{ from_step := "", to_step := "step_c", branch := some "if", line_number := some 5 },
       { from_step := "", to_step := "step_d", branch := some "else", line_number := some 7 }] := by
  refine ⟨fun k body => ?_, by decide, by decide⟩
  exact visitStmts_eq_callSites k [] body

/-- C5: an edge is recorded for a reached call exactly when its candidate
target is in the supplied set of known step names — the visitor's output
is the per-call-site `Option.bind` over the candidate target, guarded
only by membership in the known set; a call whose candidate is absent or
unknown contributes nothing (and the visitor emits no diagnostic and
raises no error: it is a total function into edge lists).  The
hypothesis `"" ∉ k` records that step names are nonempty identifiers. -/
theorem c5_edge_iff_target_known (k : List String) (body : List Stmt)
    (h : "" ∉ k) :
    visitStmts k none body =
      (callSitesSs [] body).filterMap (fun c =>
        (candidateTarget c.func).bind fun t =>
          if t ∈ k then
            some { from_step := "", to_step := t,
                   branch := (c.arms.map armLabel).getLast?,
                   line_number := some c.lineno }
          else none) := by
  rw [show visitStmts k none body = (callSitesSs [] body).filterMap (edgeOfCall k) from
    visitStmts_eq_callSites k [] body]
  apply List.filterMap_congr
  intro c _
  unfold edgeOfCall
  cases hc : candidateTarget c.func with
  | none => rfl
  | some t =>
      by_cases hm : t ∈ k
      · have ht : t ≠ "" := fun he => h (he ▸ hm)
        simp [hm, ht]
      · simp [hm]

/-- Witness for C5 at a concrete input: a one-statement body whose single
call targets the only known step. -/
theorem c5_edge_iff_target_known_witness :
    visitStmts ["f"] none [.exprStmt (.call 1 (.name "f") [] [])] =
      (callSitesSs [] [.exprStmt (.call 1 (.name "f") [] [])]).filterMap (fun c =>
        (candidateTarget c.func).bind fun t =>
          if t ∈ ["f"] then
            some { from_step := "", to_step := t,
                   branch := (c.arms.map armLabel).getLast?,
                   line_number := some c.lineno }
          else none) :=
  c5_edge_iff_target_known ["f"] [.exprStmt (.call 1 (.name "f") [] [])] (by decide)

/-- C9: the visitor never descends into the `test` expression of a
conditional — its output on an `if` statement is entirely independent
of the test, and a call to a known step that occurs only in the test
produces no edge. -/
theorem c9_if_test_never_visited :
    (∀ (k : List String) (br : Option String) (test test' : Expr)
        (body orelse : List Stmt),
        visitStmt k br (.ifStmt test body orelse) =
          visitStmt k br (.ifStmt test' body orelse)) ∧
    (∀ (k : List String) (br : Option String) (t : String) (ln : Nat),
        visitStmt k br (.ifStmt (.call ln (.name t) [] []) [] []) = []) :=
  ⟨fun _ _ _ _ _ _ => rfl, fun _ _ _ _ => rfl⟩

/-! ## StepRegistry -/

/-- `StepRegistry`: `steps` is the `_steps` dict (qualified name to step,
in insertion order), `moduleSteps` the `_module_steps` dict. -/
structure StepRegistry where
  steps : List (String × StepData)
  moduleSteps : List (String × List String)
deriving DecidableEq, Repr

/-- `StepRegistry()`: both dicts empty. -/
def StepRegistry.empty : StepRegistry := ⟨[], []⟩

/-- `StepRegistry.register`: insert the step under
`module_path + "." + step.function_name` and record the qualified name
under its module. -/
def StepRegistry.register (r : StepRegistry) (modulePath : String)
    (step : StepData) : StepRegistry :=
  let qualifiedName := modulePath ++ "." ++ step.function_name
  { steps := dictInsert r.steps qualifiedName step,
    moduleSteps :=
      match dictLookup r.moduleSteps modulePath with
      | some lst => dictInsert r.moduleSteps modulePath (lst ++ [qualifiedName])
      | none => dictInsert r.moduleSteps modulePath [qualifiedName] }

/-- Python `s.endswith(suffix)`: the suffix's characters are the final
characters of `s`. -/
def pyEndsWith (s suffix : String) : Bool :=
  suffix.data == s.data.drop (s.data.length - suffix.data.length)

/-- The suffix-match loop of `StepRegistry.resolve`: first registered
entry whose key ends with `"." + call_name`. -/
def suffixFind (l : List (String × StepData)) (callName : String) :
    Option StepData :=
  match l with
  | [] => none
  | (q, s) :: rest =>
      if pyEndsWith q ("." ++ callName) then some s else suffixFind rest callName

/-- `StepRegistry.resolve`: direct qualified lookup, then lookup relative
to the calling module, then the suffix match, else `none`. -/
def StepRegistry.resolve (r : StepRegistry) (fromModule callName : String) :
    Option StepData :=
  match dictLookup r.steps callName with
  | some s => some s
  | none =>
      match dictLookup r.steps (fromModule ++ "." ++ callName) with
      | some s => some s
      | none => suffixFind r.steps callName

/-- `StepRegistry.all_steps`: the registered steps in registration order. -/
def StepRegistry.allSteps (r : StepRegistry) : List StepData :=
  r.steps.map Prod.snd

/-- Characters of the current segment accumulated in reverse; a `"."`
separator starts a new segment, so the result is the segment after the
last separator. -/
def lastSegChars : List Char → List Char → List Char
  | [], acc => acc.reverse
  | c :: rest, acc =>
      if c = '.' then lastSegChars rest [] else lastSegChars rest (c :: acc)

/-- The trailing segment of a qualified name after the last `"."`
separator (the whole name when it has no separator). -/
def lastSegment (s : String) : String :=
  ⟨lastSegChars s.data []⟩

/-- Resolution as the claim words it: rules (1) and (2) as in the code,
but rule (3) matching the first registered key whose trailing segment
after the last separator equals the called name. -/
def resolveClaimC2 (r : StepRegistry) (fromModule callName : String) :
    Option StepData :=
  match dictLookup r.steps callName with
  | some s => some s
  | none =>
      match dictLookup r.steps (fromModule ++ "." ++ callName) with
      | some s => some s
      | none =>
          (r.steps.find? (fun p => lastSegment p.1 = callName)).map Prod.snd

/-- A step registered by module `x.b` under identifier `c`. -/
def stepCdata : StepData :=
  { name := "c", function_name := "c", description := "", docstring := none, calls := [] }

/-- Registry holding only `x.b.c`. -/
def registryXbc : StepRegistry :=
  StepRegistry.empty.register "x.b" stepCdata

/-- C2 counterexample: with only `x.b.c` registered, resolving the
dotted called name `b.c` succeeds through the code's suffix test
(`"x.b.c"` ends with `".b.c"`), while the claim's rule (3) — trailing
segment after the *last* separator equal to the called name — matches
nothing, since that trailing segment is `"c"`.  So resolution does not
implement the claim's three rules. -/
theorem c2_resolve_counterexample :
    StepRegistry.resolve registryXbc "q" "b.c" = some stepCdata ∧
    resolveClaimC2 registryXbc "q" "b.c" = none ∧
    lastSegment "x.b.c" = "c" := by
  refine ⟨by decide, ?_, by decide⟩
  decide

/-- `dictLookup` is association-list lookup. -/
theorem dictLookup_eq_lookup {α : Type} (l : List (String × α)) (k : String) :
    dictLookup l k = l.lookup k := by
  induction l with
  | nil => rfl
  | cons p rest ih =>
      obtain ⟨k', v⟩ := p
      rw [dictLookup, List.lookup]
      by_cases h : k' = k
      · simp [h]
      · have : (k == k') = false := by
          simp [beq_iff_eq]
          exact fun he => h he.symm
        simp [h, this, ih]

/-- `suffixFind` is `find?` on the suffix test, projected to the value. -/
theorem suffixFind_eq_find {l : List (String × StepData)} {c : String} :
    suffixFind l c =
      (l.find? (fun p => pyEndsWith p.1 ("." ++ c))).map Prod.snd := by
  induction l with
  | nil => rfl
  | cons p rest ih =>
      obtain ⟨q, s⟩ := p
      rw [suffixFind, List.find?]
      by_cases h : pyEndsWith q ("." ++ c)
      · simp [h]
      · simp [h, ih]

/-- `pyEndsWith` decides the list-suffix relation on the characters. -/
theorem pyEndsWith_iff_isSuffix (s suffix : String) :
    pyEndsWith s suffix = true ↔ suffix.data <:+ s.data := by
  rw [pyEndsWith, beq_iff_eq]
  constructor
  · intro h
    exact h ▸ List.drop_suffix _ _
  · intro h
    obtain ⟨pre, hpre⟩ := h
    rw [← hpre, List.length_append, Nat.add_sub_cancel, List.drop_left]

/-- Keys of `dictInsert`: unchanged when the key is present, else the key
is appended, preserving the order of existing keys. -/
theorem dictInsert_keys {α : Type} (l : List (String × α)) (k : String) (v : α) :
    (dictInsert l k v).map Prod.fst =
      if k ∈ l.map Prod.fst then l.map Prod.fst else l.map Prod.fst ++ [k] := by
  induction l with
  | nil => simp [dictInsert]
  | cons p rest ih =>
      obtain ⟨k', v'⟩ := p
      rw [dictInsert]
      by_cases h : k' = k
      · simp [h]
      · have hne : ¬k = k' := fun he => h he.symm
        by_cases hm : k ∈ rest.map Prod.fst
        · simp [h, hne, hm, ih]
        · simp [h, hne, hm, ih]

/-- C2 amended: `resolve` tries, in order, (1) the called name as an
exact key, (2) the calling module joined to the called name, and (3) the
first registered key (in registration order) that *ends with the
separator followed by the called name* — equivalent to the trailing
segment after the last separator only when the called name itself
contains no separator.  Registration keeps existing keys in place and
appends new keys, so rule (3) is registration-order dependent. -/
theorem c2_resolve_rules :
    (∀ (r : StepRegistry) (m c : String),
        r.resolve m c =
          ((r.steps.lookup c).orElse
              (fun _ => r.steps.lookup (m ++ "." ++ c))).orElse
            (fun _ => (r.steps.find? (fun p => pyEndsWith p.1 ("." ++ c))).map Prod.snd)) ∧
    (∀ (s suffix : String), pyEndsWith s suffix = true ↔ suffix.data <:+ s.data) ∧
    (∀ (r : StepRegistry) (m : String) (s : StepData),
        ((r.register m s).steps.map Prod.fst) =
          if m ++ "." ++ s.function_name ∈ r.steps.map Prod.fst then
            r.steps.map Prod.fst
          else r.steps.map Prod.fst ++ [m ++ "." ++ s.function_name]) := by
  refine ⟨?_, pyEndsWith_iff_isSuffix, ?_⟩
  · intro r m c
    rw [StepRegistry.resolve]
    rw [dictLookup_eq_lookup, dictLookup_eq_lookup, suffixFind_eq_find]
    cases r.steps.lookup c with
    | some s => rfl
    | none =>
        cases r.steps.lookup (m ++ "." ++ c) with
        | some s => rfl
        | none => rfl
  · intro r m s
    exact dictInsert_keys r.steps (m ++ "." ++ s.function_name) s

/-! ## Decorator recognition and argument extraction -/

/-- `FlowParser.FLOW_DECORATOR_NAMES`. -/
def FLOW_DECORATOR_NAMES : List String := ["flow", "business_flow"]

/-- `FlowParser.STEP_DECORATOR_NAMES`. -/
def STEP_DECORATOR_NAMES : List String := ["step", "business_step", "flow_step"]

/-- `FlowParser._is_step_decorator`: a call whose callee is a bare
recognized name, a call whose callee is a namespaced reference ending in
a recognized name, or a bare recognized name. -/
def isStepDecorator : Expr → Bool
  | .call _ (.name id) _ _ => STEP_DECORATOR_NAMES.contains id
  | .call _ (.attr _ a) _ _ => STEP_DECORATOR_NAMES.contains a
  | .name id => STEP_DECORATOR_NAMES.contains id
  | _ => false

/-- `FlowParser._has_step_decorator` over a decorator list. -/
def hasStepDecorator (decs : List Expr) : Bool :=
  decs.any isStepDecorator

/-- `FlowParser._is_flow_decorator`: same three shapes over the flow
decorator names. -/
def isFlowDecorator : Expr → Bool
  | .call _ (.name id) _ _ => FLOW_DECORATOR_NAMES.contains id
  | .call _ (.attr _ a) _ _ => FLOW_DECORATOR_NAMES.contains a
  | .name id => FLOW_DECORATOR_NAMES.contains id
  | _ => false

/-- `FlowParser._has_flow_decorator` over a decorator list. -/
def hasFlowDecorator (decs : List Expr) : Bool :=
  decs.any isFlowDecorator

/-- The keyword loop of `FlowParser._extract_decorator_args`: a keyword
with no name (`**kwargs`) is skipped; a literal string value is stored
(dict update); a non-string literal is dropped silently; any other value
is skipped with a warning naming the argument. -/
def extractKwArgs : List Kw → List (String × String) → List Diag →
    List (String × String) × List Diag
  | [], acc, ds => (acc, ds)
  | .mk none _ :: rest, acc, ds => extractKwArgs rest acc ds
  | .mk (some a) v :: rest, acc, ds =>
      match v with
      | .const (.str s) => extractKwArgs rest (dictInsert acc a s) ds
      | .const _ => extractKwArgs rest acc ds
      | _ => extractKwArgs rest acc (ds ++ [Diag.dynamicArg a])

/-- `FlowParser._extract_decorator_args`: empty for a non-call
decorator, else the keyword loop starting from an empty dict. -/
def extractDecoratorArgs (d : Expr) : List (String × String) × List Diag :=
  match d with
  | .call _ _ _ kws => extractKwArgs kws [] []
  | _ => ([], [])

/-- `ast.get_docstring`: the string constant that is the first statement
of the body, if any (indentation cleaning is not modelled). -/
def getDocstring (body : List Stmt) : Option String :=
  match body with
  | .exprStmt (.const (.str s)) :: _ => some s
  | _ => none

/-- `FlowParser._extract_step_metadata` on a function definition's name,
decorator list and body: the first step decorator's literal arguments
override the defaults (function identifier, empty description). -/
def extractStepMetadata (fname : String) (decs : List Expr)
    (body : List Stmt) : StepData × List Diag :=
  match decs.find? isStepDecorator with
  | some d =>
      let (args, ds) := extractDecoratorArgs d
      ({ name := (dictLookup args "name").getD fname,
         function_name := fname,
         description := (dictLookup args "description").getD "",
         docstring := getDocstring body, calls := [] }, ds)
  | none =>
      ({ name := fname, function_name := fname, description := "",
         docstring := getDocstring body, calls := [] }, [])

/-- Does an expression count as a literal constant (`ast.Constant`)? -/
def isConstExpr : Expr → Bool
  | .const _ => true
  | _ => false

/-- Is a constant a string literal? -/
def isStrConst : Const → Bool
  | .str _ => true
  | _ => false

/-- The diagnostic the keyword loop emits for one keyword, if any. -/
def kwDiag (kw : Kw) : Option Diag :=
  match kw with
  | .mk none _ => none
  | .mk (some a) v => if isConstExpr v then none else some (Diag.dynamicArg a)

/-- The keywords of a call decorator (none for other shapes). -/
def kwsOf : Expr → List Kw
  | .call _ _ _ kws => kws
  | _ => []

/-- The keyword loop appends exactly one diagnostic per named
non-constant keyword, in order. -/
theorem extractKwArgs_diags (kws : List Kw) (acc : List (String × String))
    (ds : List Diag) :
    (extractKwArgs kws acc ds).2 = ds ++ kws.filterMap kwDiag := by
  induction kws generalizing acc ds with
  | nil => simp [extractKwArgs]
  | cons kw rest ih =>
      cases kw with
      | mk a v =>
          cases a with
          | none => simp [extractKwArgs, ih, kwDiag]
          | some nm =>
              cases v with
              | const c =>
                  cases c with
                  | str s => simp [extractKwArgs, ih, kwDiag, isConstExpr]
                  | intC n => simp [extractKwArgs, ih, kwDiag, isConstExpr]
                  | boolC b => simp [extractKwArgs, ih, kwDiag, isConstExpr]
                  | noneC => simp [extractKwArgs, ih, kwDiag, isConstExpr]
              | name id => simp [extractKwArgs, ih, kwDiag, isConstExpr]
              | attr v' a' => simp [extractKwArgs, ih, kwDiag, isConstExpr]
              | call ln f args' kws' => simp [extractKwArgs, ih, kwDiag, isConstExpr]
              | awaitE v' => simp [extractKwArgs, ih, kwDiag, isConstExpr]

/-- C6: a step tag whose keyword argument value is not a literal
constant (an expression, variable, interpolation, …) keeps the defaults
— display name falls back to the function identifier and the description
to empty text — and exactly one warning diagnostic naming the skipped
argument is emitted; extraction is a total function, so no exception
propagates.  The first conjunct characterizes the diagnostics of any
decorator: exactly one per named non-constant argument, in order. -/
theorem c6_dynamic_arg_defaults_and_warns :
    (∀ (d : Expr), (extractDecoratorArgs d).2 = (kwsOf d).filterMap kwDiag) ∧
    (∀ (fname a : String) (v : Expr) (ln : Nat) (dn : String)
        (body : List Stmt),
        dn ∈ STEP_DECORATOR_NAMES → isConstExpr v = false →
        extractStepMetadata fname [.call ln (.name dn) [] [.mk (some a) v]] body =
          ({ name := fname, function_name := fname, description := "",
             docstring := getDocstring body, calls := [] },
           [Diag.dynamicArg a])) := by
  constructor
  · intro d
    cases d with
    | call ln f args kws =>
        have := extractKwArgs_diags kws [] []
        simpa [extractDecoratorArgs, kwsOf] using this
    | name id => rfl
    | attr v a => rfl
    | const c => rfl
    | awaitE v => rfl
  · intro fname a v ln dn body hdn hv
    have hstep : isStepDecorator (.call ln (.name dn) [] [.mk (some a) v]) = true := by
      simp [isStepDecorator, List.contains_iff_exists_mem_beq]
      exact hdn
    have hfind : ([Expr.call ln (.name dn) [] [.mk (some a) v]]).find? isStepDecorator =
        some (.call ln (.name dn) [] [.mk (some a) v]) := by
      simp [List.find?, hstep]
    rw [extractStepMetadata, hfind]
    cases v with
    | const c => simp [isConstExpr] at hv
    | name id => rfl
    | attr v' a' => rfl
    | call ln' f' args' kws' => rfl
    | awaitE v' => rfl

/-- Witness for C6 at a concrete input: `@step(name=<variable>)` on
function `f` defaults both fields and warns once about `name`. -/
theorem c6_dynamic_arg_defaults_and_warns_witness :
    extractStepMetadata "f" [.call 1 (.name "step") [] [.mk (some "name") (.name "x")]] [] =
      ({ name := "f", function_name := "f", description := "",
         docstring := none, calls := [] }, [Diag.dynamicArg "name"]) :=
  c6_dynamic_arg_defaults_and_warns.2 "f" "name" (.name "x") 1 "step" []
    (by decide) (by decide)

/-- C10: a step or flow tag keyword whose value is a literal constant
that is not a string (integer, boolean, `None`) is dropped silently —
it adds no argument and no diagnostic — and a diagnostic arises only
from a named keyword whose value is not a constant at all. -/
theorem c10_nonstring_literal_dropped_silently :
    (∀ (kws : List Kw) (acc : List (String × String)) (ds : List Diag)
        (a : String) (c : Const),
        isStrConst c = false →
        extractKwArgs (.mk (some a) (.const c) :: kws) acc ds =
          extractKwArgs kws acc ds) ∧
    (∀ (d : Expr), (extractDecoratorArgs d).2 ≠ [] →
        ∃ kw ∈ kwsOf d, kw.argName ≠ none ∧ isConstExpr kw.val = false) := by
  constructor
  · intro kws acc ds a c hc
    cases c with
    | str s => simp [isStrConst] at hc
    | intC n => rfl
    | boolC b => rfl
    | noneC => rfl
  · intro d hne
    have hchar : (extractDecoratorArgs d).2 = (kwsOf d).filterMap kwDiag := by
      cases d with
      | call ln f args kws =>
          have := extractKwArgs_diags kws [] []
          simpa [extractDecoratorArgs, kwsOf] using this
      | name id => rfl
      | attr v a => rfl
      | const c => rfl
      | awaitE v => rfl
    rw [hchar] at hne
    rw [Ne, List.filterMap_eq_nil_iff] at hne
    push_neg at hne
    obtain ⟨kw, hkw, hdg⟩ := hne
    refine ⟨kw, hkw, ?_⟩
    cases kw with
    | mk a v =>
        cases a with
        | none => simp [kwDiag] at hdg
        | some nm =>
            by_cases hcv : isConstExpr v
            · simp [kwDiag, hcv] at hdg
            · simp only [Kw.argName, Kw.val]
              simpa using hcv

/-- Witness for C10 at concrete inputs: `name=5` is dropped with no
effect at all, and a decorator that did warn (`name=<variable>`) indeed
holds a named non-constant keyword. -/
theorem c10_nonstring_literal_dropped_silently_witness :
    (extractKwArgs [.mk (some "name") (.const (.intC 5))] [] [] =
      extractKwArgs [] [] []) ∧
    ∃ kw ∈ kwsOf (.call 1 (.name "step") [] [.mk (some "name") (.name "x")]),
      kw.argName ≠ none ∧ isConstExpr kw.val = false :=
  ⟨c10_nonstring_literal_dropped_silently.1 [] [] [] "name" (.intC 5) (by decide),
   c10_nonstring_literal_dropped_silently.2
     (.call 1 (.name "step") [] [.mk (some "name") (.name "x")]) (by decide)⟩

/-! ## Tree walking and step collection

`ast.walk` is a breadth-first traversal driven by a FIFO queue; only
statement nodes can contain further function definitions, so the walk is
embedded as a queue recursion over statements.  The recursion consumes
one node per round, so the total node count of the initial queue is
enough fuel; keeping the fuel as an explicit structural argument lets
concrete runs evaluate inside the kernel, and every lemma carries the
sufficient-fuel hypothesis `stmtsSize q ≤ fuel`. -/

/-- The statement children of a statement, in AST field order. -/
def stmtChildren : Stmt → List Stmt
  | .ifStmt _ body orelse => body ++ orelse
  | .funcDef _ _ _ body => body
  | .classDef _ _ body => body
  | _ => []

mutual

/-- Number of statement nodes in a statement's subtree (at least one). -/
def stmtSize : Stmt → Nat
  | .ifStmt _ body orelse => 1 + stmtsSize body + stmtsSize orelse
  | .funcDef _ _ _ body => 1 + stmtsSize body
  | .classDef _ _ body => 1 + stmtsSize body
  | .exprStmt _ => 1
  | .ret _ => 1
  | .passStmt => 1

/-- Total node count of a statement list. -/
def stmtsSize : List Stmt → Nat
  | [] => 0
  | s :: rest => stmtSize s + stmtsSize rest

end

/-- Node counts add over concatenation. -/
theorem stmtsSize_append (a b : List Stmt) :
    stmtsSize (a ++ b) = stmtsSize a + stmtsSize b := by
  induction a with
  | nil => simp [stmtsSize]
  | cons s rest ih => simp [stmtsSize, ih]; omega

/-- A statement's children are strictly smaller than the statement. -/
theorem stmtsSize_children_lt (s : Stmt) :
    stmtsSize (stmtChildren s) < stmtSize s := by
  cases s with
  | ifStmt t b o => simp [stmtChildren, stmtSize, stmtsSize_append]
  | funcDef a n d b => simp [stmtChildren, stmtSize]
  | classDef n d b => simp [stmtChildren, stmtSize]
  | exprStmt e => simp [stmtChildren, stmtSize, stmtsSize]
  | ret v => simp [stmtChildren, stmtSize, stmtsSize]
  | passStmt => simp [stmtChildren, stmtSize, stmtsSize]

/-- One round of `ast.walk`'s queue: popping `s` and enqueueing its
children keeps the total node count under the remaining fuel. -/
theorem stmtsSize_queue_step {fuel : Nat} {s : Stmt} {q : List Stmt}
    (h : stmtsSize (s :: q) ≤ fuel + 1) :
    stmtsSize (q ++ stmtChildren s) ≤ fuel := by
  rw [stmtsSize_append]
  have h1 := stmtsSize_children_lt s
  simp [stmtsSize] at h
  omega

/-- `ast.walk` over a statement queue: yield the head, enqueue its
children at the back, continue.  `fuel` only makes the recursion
structural; one node is consumed per round, so any `fuel ≥ stmtsSize q`
reproduces the full breadth-first traversal. -/
def walkBFS : Nat → List Stmt → List Stmt
  | _, [] => []
  | 0, q => q
  | fuel + 1, s :: q => s :: walkBFS fuel (q ++ stmtChildren s)

/-- `ast.walk` over a module body, with sufficient fuel. -/
def walkAll (tree : List Stmt) : List Stmt :=
  walkBFS (stmtsSize tree) tree

/-- Every queued node appears in the walk (given sufficient fuel). -/
theorem mem_walkBFS_of_mem :
    ∀ (fuel : Nat) (q : List Stmt), stmtsSize q ≤ fuel →
      ∀ s ∈ q, s ∈ walkBFS fuel q := by
  intro fuel
  induction fuel with
  | zero =>
      intro q hq s hs
      cases q with
      | nil => cases hs
      | cons t rest =>
          have := stmtsSize_children_lt t
          simp [stmtsSize] at hq
          omega
  | succ n ih =>
      intro q hq s hs
      cases q with
      | nil => cases hs
      | cons t rest =>
          rw [walkBFS]
          rcases List.mem_cons.mp hs with hs | hs
          · exact hs ▸ List.mem_cons_self _ _
          · refine List.mem_cons_of_mem _ ?_
            exact ih (rest ++ stmtChildren t) (stmtsSize_queue_step hq) s
              (List.mem_append_left _ hs)

/-- The walk is closed under statement children (given sufficient fuel). -/
theorem children_mem_walkBFS :
    ∀ (fuel : Nat) (q : List Stmt), stmtsSize q ≤ fuel →
      ∀ t ∈ walkBFS fuel q, ∀ c ∈ stmtChildren t, c ∈ walkBFS fuel q := by
  intro fuel
  induction fuel with
  | zero =>
      intro q hq t ht c hc
      cases q with
      | nil => simp [walkBFS] at ht
      | cons u rest =>
          have := stmtsSize_children_lt u
          simp [stmtsSize] at hq
          omega
  | succ n ih =>
      intro q hq t ht c hc
      cases q with
      | nil => simp [walkBFS] at ht
      | cons u rest =>
          rw [walkBFS] at ht ⊢
          have hq' := stmtsSize_queue_step hq
          rcases List.mem_cons.mp ht with ht | ht
          · subst ht
            refine List.mem_cons_of_mem _ ?_
            exact mem_walkBFS_of_mem n (rest ++ stmtChildren t) hq' c
              (List.mem_append_right _ hc)
          · exact List.mem_cons_of_mem _ (ih (rest ++ stmtChildren u) hq' t ht c hc)

/-- A statement occurring inside another statement's subtree
(reflexively, or through a chain of statement children). -/
inductive Occurs : Stmt → Stmt → Prop
  | refl (s : Stmt) : Occurs s s
  | child {s t u : Stmt} : t ∈ stmtChildren u → Occurs s t → Occurs s u

/-- A statement occurring anywhere in a module body's forest. -/
def OccursForest (s : Stmt) (tree : List Stmt) : Prop :=
  ∃ u ∈ tree, Occurs s u

/-- Anything occurring below a walked node is itself walked. -/
theorem mem_walkBFS_of_occurs {s u : Stmt} (ho : Occurs s u) :
    ∀ (fuel : Nat) (q : List Stmt), stmtsSize q ≤ fuel →
      u ∈ walkBFS fuel q → s ∈ walkBFS fuel q := by
  induction ho with
  | refl => intro fuel q _ h; exact h
  | child hct _ ih =>
      intro fuel q hq hu
      exact ih fuel q hq (children_mem_walkBFS fuel q hq _ hu _ hct)

/-- The walk is complete: every statement occurring in the forest is in
`walkAll`. -/
theorem mem_walkAll_of_occursForest {s : Stmt} {tree : List Stmt}
    (h : OccursForest s tree) : s ∈ walkAll tree := by
  obtain ⟨u, hu, ho⟩ := h
  exact mem_walkBFS_of_occurs ho (stmtsSize tree) tree (Nat.le_refl _)
    (mem_walkBFS_of_mem (stmtsSize tree) tree (Nat.le_refl _) u hu)

/-- The walk is sound: everything in the walk occurs in the forest. -/
theorem occursForest_of_mem_walkBFS :
    ∀ (fuel : Nat) (q : List Stmt), ∀ t ∈ walkBFS fuel q, OccursForest t q := by
  intro fuel
  induction fuel with
  | zero =>
      intro q t ht
      cases q with
      | nil => simp [walkBFS] at ht
      | cons u rest =>
          have hq : walkBFS 0 (u :: rest) = u :: rest := rfl
          rw [hq] at ht
          exact ⟨t, ht, Occurs.refl t⟩
  | succ n ih =>
      intro q t ht
      cases q with
      | nil => simp [walkBFS] at ht
      | cons u rest =>
          rw [walkBFS] at ht
          rcases List.mem_cons.mp ht with ht | ht
          · exact ⟨u, List.mem_cons_self _ _, ht ▸ Occurs.refl u⟩
          · obtain ⟨v, hv, ho⟩ := ih (rest ++ stmtChildren u) t ht
            rcases List.mem_append.mp hv with hv | hv
            · exact ⟨v, List.mem_cons_of_mem _ hv, ho⟩
            · exact ⟨u, List.mem_cons_self _ _, Occurs.child hv ho⟩

/-! ## Step collection and flow assembly -/

/-- The collection loop shared by `_collect_all_steps` (over the walked
nodes) and the method collection of `_extract_class_flow` (over a class
body): keep each function or method definition carrying a step tag,
keyed by its identifier via dict update. -/
def collectTagged : List Stmt → List (String × Stmt) → List (String × Stmt)
  | [], acc => acc
  | .funcDef a n decs b :: rest, acc =>
      if hasStepDecorator decs then
        collectTagged rest (dictInsert acc n (.funcDef a n decs b))
      else collectTagged rest acc
  | _ :: rest, acc => collectTagged rest acc

/-- `FlowParser._collect_all_steps`: the collection loop over the full
breadth-first walk of the module body. -/
def collectAllSteps (tree : List Stmt) : List (String × Stmt) :=
  collectTagged (walkAll tree) []

/-- The identifier of a function definition (empty for other nodes). -/
def stmtFnName : Stmt → String
  | .funcDef _ n _ _ => n
  | _ => ""

/-- `FlowParser._extract_step_metadata` applied to a function-definition
statement node. -/
def stmtStepMetadata : Stmt → StepData × List Diag
  | .funcDef _ n decs body => extractStepMetadata n decs body
  | _ => ({ name := "", function_name := "", description := "",
            docstring := none, calls := [] }, [])

/-- The per-step loop shared by `_extract_class_flow` and
`_create_function_flow`: for each named definition, extract its
metadata, attach the detected calls, and emit one edge per call with the
defining identifier as source. -/
def stepsAndEdges (allNames : List String) :
    List (String × Stmt) → List StepData × List Edge × List Diag
  | [] => ([], [], [])
  | (mname, mnode) :: rest =>
      let md := stmtStepMetadata mnode
      let calls := findStepCalls allNames mnode
      let stepD : StepData :=
        { md.1 with calls := calls }
      let newEdges := calls.map (fun c =>
        { from_step := mname, to_step := c.to_step,
          branch := c.branch, line_number := none : Edge })
      let r := stepsAndEdges allNames rest
      (stepD :: r.1, newEdges ++ r.2.1, md.2 ++ r.2.2)

/-- The flow-name/description extraction of `_extract_class_flow`: the
first flow decorator's literal arguments override the defaults (class
name, empty description). -/
def extractFlowMeta (cname : String) (decs : List Expr) :
    (String × String) × List Diag :=
  match decs.find? isFlowDecorator with
  | some d =>
      let (args, ds) := extractDecoratorArgs d
      (((dictLookup args "name").getD cname,
        (dictLookup args "description").getD ""), ds)
  | none => ((cname, ""), [])

/-- `FlowParser._extract_class_flow` on a class's name, decorators and
body: `none` unless the class carries a flow tag, else the flow built
from the step-tagged methods, with calls detected against `allNames`. -/
def extractClassFlow (cname : String) (cdecs : List Expr)
    (cbody : List Stmt) (allNames : List String) :
    Option FlowData × List Diag :=
  if hasFlowDecorator cdecs then
    let meta := extractFlowMeta cname cdecs
    let methods := collectTagged cbody []
    let r := stepsAndEdges allNames methods
    (some { name := meta.1.1, type := "class", steps := r.1,
            edges := r.2.1, description := meta.1.2 }, meta.2 ++ r.2.2)
  else (none, [])

/-- The class loop of `parse_file` / `_parse_tree_with_registry`: one
flow per top-level class for which `_extract_class_flow` succeeds. -/
def extractClassFlows (allNames : List String) :
    List Stmt → List FlowData × List Diag
  | [] => ([], [])
  | .classDef cn decs body :: rest =>
      let r1 := extractClassFlow cn decs body allNames
      let r2 := extractClassFlows allNames rest
      (match r1.1 with
       | some fd => fd :: r2.1
       | none => r2.1, r1.2 ++ r2.2)
  | _ :: rest => extractClassFlows allNames rest

/-- `FlowParser._extract_function_steps`: top-level function definitions
whose identifier is among the known step names. -/
def functionStepsOf (names : List String) : List Stmt → List Stmt
  | [] => []
  | .funcDef a n decs b :: rest =>
      if names.contains n then
        .funcDef a n decs b :: functionStepsOf names rest
      else functionStepsOf names rest
  | _ :: rest => functionStepsOf names rest

/-- `FlowParser._create_function_flow`: an implicit flow over the
standalone step functions. -/
def createFunctionFlow (fnsteps : List Stmt) (allNames : List String) :
    FlowData × List Diag :=
  let pairs := fnsteps.map (fun s => (stmtFnName s, s))
  let r := stepsAndEdges allNames pairs
  ({ name := "Function Flow", type := "function", steps := r.1,
     edges := r.2.1, description := "Flow derived from standalone function" },
   r.2.2)

/-- `FlowParser.parse_file` on an already-parsed module body: class
flows for top-level flow classes, then at most one implicit function
flow when some top-level function's name is among the collected step
names. -/
def parseFile (tree : List Stmt) : List FlowData × List Diag :=
  let allNames := (collectAllSteps tree).map Prod.fst
  let cf := extractClassFlows allNames tree
  let fnsteps := functionStepsOf allNames tree
  if fnsteps.isEmpty then cf
  else
    let ff := createFunctionFlow fnsteps allNames
    (cf.1 ++ [ff.1], cf.2 ++ ff.2)

/-- The union construction of `_parse_tree_with_registry`: local step
names first, then registry step names not already present, in registry
order. -/
def combinedNames (localNames : List String) : List StepData → List String
  | [] => localNames
  | s :: rest =>
      if localNames.contains s.function_name then
        combinedNames localNames rest
      else combinedNames (localNames ++ [s.function_name]) rest

/-- `FlowParser._parse_tree_with_registry`: like `parse_file`, but call
detection runs against the union of local and registry step names; the
top-level function filter still uses only the local steps. -/
def parseTreeWithRegistry (tree : List Stmt) (reg : StepRegistry) :
    List FlowData × List Diag :=
  let localNames := (collectAllSteps tree).map Prod.fst
  let combined := combinedNames localNames reg.allSteps
  let cf := extractClassFlows combined tree
  let fnsteps := functionStepsOf localNames tree
  if fnsteps.isEmpty then cf
  else
    let ff := createFunctionFlow fnsteps combined
    (cf.1 ++ [ff.1], cf.2 ++ ff.2)

/-! ## Directory-level extraction (`parse_directory`) -/

/-- A source file as the directory pass sees it: its path, its derived
dotted module path (path-to-module derivation is an external concern of
the orchestrator), and its parse result — `none` when `ast.parse`
raises a `SyntaxError`. -/
structure SrcFile where
  path : String
  module : String
  tree : Option (List Stmt)

/-- The registration loop of pass 1: register the metadata of every
collected step of a file under its module path. -/
def registerStepList (reg : StepRegistry) (modulePath : String) :
    List (String × Stmt) → StepRegistry × List Diag
  | [] => (reg, [])
  | (_, node) :: rest =>
      let md := stmtStepMetadata node
      let r := registerStepList (reg.register modulePath md.1) modulePath rest
      (r.1, md.2 ++ r.2)

/-- Pass 1 of `parse_directory`: build the registry, remembering each
successfully parsed tree; a file whose tree cannot be parsed yields a
warning diagnostic and is skipped. -/
def pass1 (reg : StepRegistry) :
    List SrcFile → StepRegistry × List (List Stmt) × List Diag
  | [] => (reg, [], [])
  | f :: rest =>
      match f.tree with
      | none =>
          let r := pass1 reg rest
          (r.1, r.2.1, Diag.cannotParse f.path :: r.2.2)
      | some t =>
          let r0 := registerStepList reg f.module (collectAllSteps t)
          let r := pass1 r0.1 rest
          (r.1, t :: r.2.1, r0.2 ++ r.2.2)

/-- Pass 2 of `parse_directory`: re-walk every successfully parsed tree
against the completed registry. -/
def pass2 (reg : StepRegistry) : List (List Stmt) → List FlowData × List Diag
  | [] => ([], [])
  | t :: rest =>
      let r1 := parseTreeWithRegistry t reg
      let r2 := pass2 reg rest
      (r1.1 ++ r2.1, r1.2 ++ r2.2)

/-- `FlowParser.parse_directory` over an already-discovered file list:
pass 1 builds the registry (skipping unparseable files with a warning),
pass 2 assembles the flows of every parseable file. -/
def parseDirectory (files : List SrcFile) : List FlowData × List Diag :=
  let p1 := pass1 StepRegistry.empty files
  let p2 := pass2 p1.1 p1.2.1
  (p2.1, p1.2.2 ++ p2.2)

/-- `FlowParser.parse_file` on a single explicitly-given file: an
unparseable file raises (`Except.error`) instead of degrading. -/
def parseFileE (f : SrcFile) : Except String (List FlowData × List Diag) :=
  match f.tree with
  | none => Except.error ("Cannot parse " ++ f.path)
  | some t => Except.ok (parseFile t)

/-! ## Properties of collection and assembly -/

/-- Key membership of a dict update. -/
theorem dictInsert_mem_keys {α : Type} (l : List (String × α)) (k k' : String)
    (v : α) :
    k' ∈ (dictInsert l k v).map Prod.fst ↔ k' = k ∨ k' ∈ l.map Prod.fst := by
  induction l with
  | nil => simp [dictInsert]
  | cons p rest ih =>
      obtain ⟨k0, v0⟩ := p
      rw [dictInsert]
      by_cases h : k0 = k
      · subst h
        simp
      · simp [h, ih]
        tauto

/-- Every pair of a dict update is an old pair or the new binding. -/
theorem dictInsert_mem_pairs {α : Type} {l : List (String × α)} {k : String}
    {v : α} {p : String × α} (hp : p ∈ dictInsert l k v) :
    p ∈ l ∨ p = (k, v) := by
  induction l with
  | nil => simpa [dictInsert] using hp
  | cons q rest ih =>
      obtain ⟨k0, v0⟩ := q
      rw [dictInsert] at hp
      by_cases h : k0 = k
      · rw [if_pos h] at hp
        rcases List.mem_cons.mp hp with hp | hp
        · exact Or.inr hp
        · exact Or.inl (List.mem_cons_of_mem _ hp)
      · rw [if_neg h] at hp
        rcases List.mem_cons.mp hp with hp | hp
        · exact Or.inl (hp ▸ List.mem_cons_self _ _)
        · rcases ih hp with hp | hp
          · exact Or.inl (List.mem_cons_of_mem _ hp)
          · exact Or.inr hp

/-- The collection loop never loses a key already present. -/
theorem collectTagged_keys_mono :
    ∀ (l : List Stmt) (acc : List (String × Stmt)) (k : String),
      k ∈ acc.map Prod.fst → k ∈ (collectTagged l acc).map Prod.fst := by
  intro l
  induction l with
  | nil => intro acc k hk; exact hk
  | cons s rest ih =>
      intro acc k hk
      cases s with
      | funcDef a n decs b =>
          rw [collectTagged]
          by_cases ht : hasStepDecorator decs
          · rw [if_pos ht]
            exact ih _ k ((dictInsert_mem_keys acc n k _).mpr (Or.inr hk))
          · rw [if_neg ht]
            exact ih _ k hk
      | exprStmt e => exact ih _ k hk
      | ifStmt t b o => exact ih _ k hk
      | classDef n d b => exact ih _ k hk
      | ret v => exact ih _ k hk
      | passStmt => exact ih _ k hk

/-- A tagged function definition in the processed list lands in the
collection's keys. -/
theorem collectTagged_mem_key :
    ∀ (l : List Stmt) (acc : List (String × Stmt)) (a : Bool) (n : String)
      (decs : List Expr) (b : List Stmt),
      Stmt.funcDef a n decs b ∈ l → hasStepDecorator decs = true →
      n ∈ (collectTagged l acc).map Prod.fst := by
  intro l
  induction l with
  | nil => intro acc a n decs b hm; cases hm
  | cons s rest ih =>
      intro acc a n decs b hm htag
      rcases List.mem_cons.mp hm with heq | htail
      · subst heq
        rw [collectTagged, if_pos htag]
        exact collectTagged_keys_mono rest _ n
          ((dictInsert_mem_keys acc n n _).mpr (Or.inl rfl))
      · cases s with
        | funcDef a' n' decs' b' =>
            rw [collectTagged]
            by_cases ht : hasStepDecorator decs'
            · rw [if_pos ht]; exact ih _ a n decs b htail htag
            · rw [if_neg ht]; exact ih _ a n decs b htail htag
        | exprStmt e => exact ih _ a n decs b htail htag
        | ifStmt t b0 o => exact ih _ a n decs b htail htag
        | classDef n0 d0 b0 => exact ih _ a n decs b htail htag
        | ret v => exact ih _ a n decs b htail htag
        | passStmt => exact ih _ a n decs b htail htag

/-- Every key of the collection comes from the accumulator or from some
tagged function definition in the processed list. -/
theorem collectTagged_key_src :
    ∀ (l : List Stmt) (acc : List (String × Stmt)) (k : String),
      k ∈ (collectTagged l acc).map Prod.fst →
      k ∈ acc.map Prod.fst ∨
        ∃ a decs b, Stmt.funcDef a k decs b ∈ l ∧ hasStepDecorator decs = true := by
  intro l
  induction l with
  | nil => intro acc k hk; exact Or.inl hk
  | cons s rest ih =>
      intro acc k hk
      cases s with
      | funcDef a n decs b =>
          rw [collectTagged] at hk
          by_cases ht : hasStepDecorator decs
          · rw [if_pos ht] at hk
            rcases ih _ k hk with hk | ⟨a', decs', b', hm, htag⟩
            · rcases (dictInsert_mem_keys acc n k _).mp hk with hk | hk
              · exact Or.inr ⟨a, decs, b, hk ▸ List.mem_cons_self _ _, ht⟩
              · exact Or.inl hk
            · exact Or.inr ⟨a', decs', b', List.mem_cons_of_mem _ hm, htag⟩
          · rw [if_neg ht] at hk
            rcases ih _ k hk with hk | ⟨a', decs', b', hm, htag⟩
            · exact Or.inl hk
            · exact Or.inr ⟨a', decs', b', List.mem_cons_of_mem _ hm, htag⟩
      | exprStmt e =>
          rcases ih _ k hk with hk | ⟨a', decs', b', hm, htag⟩
          · exact Or.inl hk
          · exact Or.inr ⟨a', decs', b', List.mem_cons_of_mem _ hm, htag⟩
      | ifStmt t b0 o =>
          rcases ih _ k hk with hk | ⟨a', decs', b', hm, htag⟩
          · exact Or.inl hk
          · exact Or.inr ⟨a', decs', b', List.mem_cons_of_mem _ hm, htag⟩
      | classDef n0 d0 b0 =>
          rcases ih _ k hk with hk | ⟨a', decs', b', hm, htag⟩
          · exact Or.inl hk
          · exact Or.inr ⟨a', decs', b', List.mem_cons_of_mem _ hm, htag⟩
      | ret v =>
          rcases ih _ k hk with hk | ⟨a', decs', b', hm, htag⟩
          · exact Or.inl hk
          · exact Or.inr ⟨a', decs', b', List.mem_cons_of_mem _ hm, htag⟩
      | passStmt =>
          rcases ih _ k hk with hk | ⟨a', decs', b', hm, htag⟩
          · exact Or.inl hk
          · exact Or.inr ⟨a', decs', b', List.mem_cons_of_mem _ hm, htag⟩

/-- Every pair of the collection comes from the accumulator or is a
tagged function definition of the processed list, keyed by its own
identifier. -/
theorem collectTagged_pairs :
    ∀ (l : List Stmt) (acc : List (String × Stmt)) (p : String × Stmt),
      p ∈ collectTagged l acc →
      p ∈ acc ∨
        ∃ a decs b, p.2 = Stmt.funcDef a p.1 decs b ∧ p.2 ∈ l ∧
          hasStepDecorator decs = true := by
  intro l
  induction l with
  | nil => intro acc p hp; exact Or.inl hp
  | cons s rest ih =>
      intro acc p hp
      cases s with
      | funcDef a n decs b =>
          rw [collectTagged] at hp
          by_cases ht : hasStepDecorator decs
          · rw [if_pos ht] at hp
            rcases ih _ p hp with hp | ⟨a', decs', b', hq, hm, htag⟩
            · rcases dictInsert_mem_pairs hp with hp | hp
              · exact Or.inl hp
              · refine Or.inr ⟨a, decs, b, ?_, ?_, ht⟩
                · rw [hp]
                · rw [hp]; exact List.mem_cons_self _ _
            · exact Or.inr ⟨a', decs', b', hq, List.mem_cons_of_mem _ hm, htag⟩
          · rw [if_neg ht] at hp
            rcases ih _ p hp with hp | ⟨a', decs', b', hq, hm, htag⟩
            · exact Or.inl hp
            · exact Or.inr ⟨a', decs', b', hq, List.mem_cons_of_mem _ hm, htag⟩
      | exprStmt e =>
          rcases ih _ p hp with hp | ⟨a', decs', b', hq, hm, htag⟩
          · exact Or.inl hp
          · exact Or.inr ⟨a', decs', b', hq, List.mem_cons_of_mem _ hm, htag⟩
      | ifStmt t b0 o =>
          rcases ih _ p hp with hp | ⟨a', decs', b', hq, hm, htag⟩
          · exact Or.inl hp
          · exact Or.inr ⟨a', decs', b', hq, List.mem_cons_of_mem _ hm, htag⟩
      | classDef n0 d0 b0 =>
          rcases ih _ p hp with hp | ⟨a', decs', b', hq, hm, htag⟩
          · exact Or.inl hp
          · exact Or.inr ⟨a', decs', b', hq, List.mem_cons_of_mem _ hm, htag⟩
      | ret v =>
          rcases ih _ p hp with hp | ⟨a', decs', b', hq, hm, htag⟩
          · exact Or.inl hp
          · exact Or.inr ⟨a', decs', b', hq, List.mem_cons_of_mem _ hm, htag⟩
      | passStmt =>
          rcases ih _ p hp with hp | ⟨a', decs', b', hq, hm, htag⟩
          · exact Or.inl hp
          · exact Or.inr ⟨a', decs', b', hq, List.mem_cons_of_mem _ hm, htag⟩

/-- Every edge the visitor records targets a known step name. -/
theorem findStepCalls_to_step_mem {k : List String} {fn : Stmt} {e : Edge}
    (he : e ∈ findStepCalls k fn) : e.to_step ∈ k := by
  rw [findStepCalls, show visitStmt k none fn =
      (callSitesS [] fn).filterMap (edgeOfCall k) from
      visitStmt_eq_callSites k [] fn] at he
  obtain ⟨c, _, hec⟩ := List.mem_filterMap.mp he
  unfold edgeOfCall at hec
  split at hec
  next t heq =>
    split at hec
    next hg =>
      cases hec
      exact hg.2
    next hg => cases hec
  next heq => cases hec

/-- `_extract_step_metadata` always records the function's identifier. -/
theorem extractStepMetadata_function_name (n : String) (decs : List Expr)
    (b : List Stmt) :
    (extractStepMetadata n decs b).1.function_name = n := by
  unfold extractStepMetadata
  cases h : decs.find? isStepDecorator with
  | none => rfl
  | some d => simp

/-- Metadata extraction preserves the node's identifier. -/
theorem stmtStepMetadata_function_name (s : Stmt) :
    (stmtStepMetadata s).1.function_name = stmtFnName s := by
  cases s with
  | funcDef a n decs b => exact extractStepMetadata_function_name n decs b
  | exprStmt e => rfl
  | ifStmt t b o => rfl
  | classDef n d b => rfl
  | ret v => rfl
  | passStmt => rfl

/-- The step records of the per-step loop are the pairs' identifiers. -/
theorem stepsAndEdges_steps_names (allNames : List String)
    (pairs : List (String × Stmt)) :
    (stepsAndEdges allNames pairs).1.map StepData.function_name =
      pairs.map (fun p => stmtFnName p.2) := by
  induction pairs with
  | nil => rfl
  | cons p rest ih =>
      obtain ⟨mname, mnode⟩ := p
      rw [stepsAndEdges]
      simp only [List.map_cons]
      rw [ih]
      congr 1
      exact stmtStepMetadata_function_name mnode

/-- Every step record of the per-step loop comes from one of the pairs. -/
theorem stepsAndEdges_steps_mem (allNames : List String)
    (pairs : List (String × Stmt)) :
    ∀ st ∈ (stepsAndEdges allNames pairs).1,
      ∃ p ∈ pairs, st.function_name = stmtFnName p.2 := by
  induction pairs with
  | nil => intro st hst; cases hst
  | cons p rest ih =>
      obtain ⟨mname, mnode⟩ := p
      intro st hst
      rw [stepsAndEdges] at hst
      rcases List.mem_cons.mp hst with hst | hst
      · refine ⟨(mname, mnode), List.mem_cons_self _ _, ?_⟩
        rw [hst]
        exact stmtStepMetadata_function_name mnode
      · obtain ⟨q, hq, hqn⟩ := ih st hst
        exact ⟨q, List.mem_cons_of_mem _ hq, hqn⟩

/-- Every edge of the per-step loop starts at one of the pairs'
identifiers and targets a known step name. -/
theorem stepsAndEdges_edges (allNames : List String)
    (pairs : List (String × Stmt)) :
    ∀ e ∈ (stepsAndEdges allNames pairs).2.1,
      e.from_step ∈ pairs.map Prod.fst ∧ e.to_step ∈ allNames := by
  induction pairs with
  | nil => intro e he; cases he
  | cons p rest ih =>
      obtain ⟨mname, mnode⟩ := p
      intro e he
      rw [stepsAndEdges] at he
      rcases List.mem_append.mp he with he | he
      · obtain ⟨c, hc, hce⟩ := List.mem_map.mp he
        subst hce
        exact ⟨List.mem_cons_self _ _,
          show c.to_step ∈ allNames from findStepCalls_to_step_mem hc⟩
      · obtain ⟨h1, h2⟩ := ih e he
        exact ⟨List.mem_cons_of_mem _ h1, h2⟩

/-- The edges of a class flow start at its own steps' identifiers and
target known step names. -/
theorem extractClassFlow_edges {cname : String} {cdecs : List Expr}
    {cbody : List Stmt} {allNames : List String} {fd : FlowData}
    (h : (extractClassFlow cname cdecs cbody allNames).1 = some fd) :
    ∀ e ∈ fd.edges,
      e.from_step ∈ fd.steps.map StepData.function_name ∧
        e.to_step ∈ allNames := by
  intro e he
  by_cases hf : hasFlowDecorator cdecs
  · have h' : fd = FlowData.mk (extractFlowMeta cname cdecs).1.1 "class"
        (stepsAndEdges allNames (collectTagged cbody [])).1
        (stepsAndEdges allNames (collectTagged cbody [])).2.1
        (extractFlowMeta cname cdecs).1.2 := by
      simp [extractClassFlow, hf] at h
      exact h.symm
    subst h'
    obtain ⟨h1, h2⟩ := stepsAndEdges_edges allNames (collectTagged cbody []) e he
    refine ⟨?_, h2⟩
    show e.from_step ∈
      (stepsAndEdges allNames (collectTagged cbody [])).1.map StepData.function_name
    rw [stepsAndEdges_steps_names]
    have hmaps : (collectTagged cbody []).map (fun p => stmtFnName p.2) =
        (collectTagged cbody []).map Prod.fst := by
      apply List.map_congr_left
      intro p hp
      rcases collectTagged_pairs cbody [] p hp with h0 | ⟨a, decs, b, hq, _, _⟩
      · cases h0
      · rw [hq]; rfl
    rw [hmaps]
    exact h1
  · simp [extractClassFlow, hf] at h

/-- Which class a flow of the class loop comes from. -/
theorem extractClassFlows_mem {allNames : List String} {tree : List Stmt}
    {f : FlowData} (h : f ∈ (extractClassFlows allNames tree).1) :
    ∃ cn decs body, Stmt.classDef cn decs body ∈ tree ∧
      (extractClassFlow cn decs body allNames).1 = some f := by
  induction tree with
  | nil => cases h
  | cons s rest ih =>
      cases s with
      | classDef cn decs body =>
          rw [extractClassFlows] at h
          simp only at h
          cases hcf : (extractClassFlow cn decs body allNames).1 with
          | some fd =>
              rw [hcf] at h
              rcases List.mem_cons.mp h with h | h
              · exact ⟨cn, decs, body, List.mem_cons_self _ _, h ▸ hcf⟩
              · obtain ⟨cn', decs', body', hm, hcf'⟩ := ih h
                exact ⟨cn', decs', body', List.mem_cons_of_mem _ hm, hcf'⟩
          | none =>
              rw [hcf] at h
              obtain ⟨cn', decs', body', hm, hcf'⟩ := ih h
              exact ⟨cn', decs', body', List.mem_cons_of_mem _ hm, hcf'⟩
      | funcDef a n decs b =>
          obtain ⟨cn', decs', body', hm, hcf'⟩ := ih h
          exact ⟨cn', decs', body', List.mem_cons_of_mem _ hm, hcf'⟩
      | exprStmt e =>
          obtain ⟨cn', decs', body', hm, hcf'⟩ := ih h
          exact ⟨cn', decs', body', List.mem_cons_of_mem _ hm, hcf'⟩
      | ifStmt t b o =>
          obtain ⟨cn', decs', body', hm, hcf'⟩ := ih h
          exact ⟨cn', decs', body', List.mem_cons_of_mem _ hm, hcf'⟩
      | ret v =>
          obtain ⟨cn', decs', body', hm, hcf'⟩ := ih h
          exact ⟨cn', decs', body', List.mem_cons_of_mem _ hm, hcf'⟩
      | passStmt =>
          obtain ⟨cn', decs', body', hm, hcf'⟩ := ih h
          exact ⟨cn', decs', body', List.mem_cons_of_mem _ hm, hcf'⟩

/-- Every selected top-level step is a top-level function definition
whose name is known. -/
theorem functionStepsOf_mem (names : List String) :
    ∀ (tree : List Stmt) (s : Stmt), s ∈ functionStepsOf names tree →
      s ∈ tree ∧ ∃ a n decs b, s = Stmt.funcDef a n decs b ∧
        names.contains n = true := by
  intro tree
  induction tree with
  | nil => intro s h; cases h
  | cons s0 rest ih =>
      intro s h
      cases s0 with
      | funcDef a n decs b =>
          rw [functionStepsOf] at h
          by_cases hc : names.contains n = true
          · rw [if_pos hc] at h
            rcases List.mem_cons.mp h with heq | htail
            · refine ⟨?_, a, n, decs, b, heq, hc⟩
              rw [heq]
              exact List.mem_cons_self _ _
            · obtain ⟨hm, ex⟩ := ih s htail
              exact ⟨List.mem_cons_of_mem _ hm, ex⟩
          · rw [if_neg hc] at h
            obtain ⟨hm, ex⟩ := ih s h
            exact ⟨List.mem_cons_of_mem _ hm, ex⟩
      | exprStmt e =>
          obtain ⟨hm, ex⟩ := ih s h
          exact ⟨List.mem_cons_of_mem _ hm, ex⟩
      | ifStmt t b0 o =>
          obtain ⟨hm, ex⟩ := ih s h
          exact ⟨List.mem_cons_of_mem _ hm, ex⟩
      | classDef n0 d0 b0 =>
          obtain ⟨hm, ex⟩ := ih s h
          exact ⟨List.mem_cons_of_mem _ hm, ex⟩
      | ret v =>
          obtain ⟨hm, ex⟩ := ih s h
          exact ⟨List.mem_cons_of_mem _ hm, ex⟩
      | passStmt =>
          obtain ⟨hm, ex⟩ := ih s h
          exact ⟨List.mem_cons_of_mem _ hm, ex⟩

/-- A top-level function definition whose name is known is selected. -/
theorem mem_functionStepsOf (names : List String) :
    ∀ (tree : List Stmt) (a : Bool) (n : String) (decs : List Expr)
      (b : List Stmt),
      Stmt.funcDef a n decs b ∈ tree → names.contains n = true →
      Stmt.funcDef a n decs b ∈ functionStepsOf names tree := by
  intro tree
  induction tree with
  | nil => intro a n decs b hm; cases hm
  | cons s0 rest ih =>
      intro a n decs b hm hc
      rcases List.mem_cons.mp hm with heq | htail
      · subst heq
        rw [functionStepsOf, if_pos hc]
        exact List.mem_cons_self _ _
      · cases s0 with
        | funcDef a' n' decs' b' =>
            rw [functionStepsOf]
            by_cases hc' : names.contains n' = true
            · rw [if_pos hc']
              exact List.mem_cons_of_mem _ (ih a n decs b htail hc)
            · rw [if_neg hc']
              exact ih a n decs b htail hc
        | exprStmt e => exact ih a n decs b htail hc
        | ifStmt t b0 o => exact ih a n decs b htail hc
        | classDef n0 d0 b0 => exact ih a n decs b htail hc
        | ret v => exact ih a n decs b htail hc
        | passStmt => exact ih a n decs b htail hc

/-- Is a statement a top-level flow container (a class with a flow tag)? -/
def isFlowClassStmt : Stmt → Bool
  | .classDef _ decs _ => hasFlowDecorator decs
  | _ => false

/-- `List.contains` on names is membership. -/
theorem contains_eq_true_iff_mem (names : List String) (n : String) :
    names.contains n = true ↔ n ∈ names := by
  simp [List.contains_iff_exists_mem_beq]

/-- The class loop yields exactly one flow per flow-tagged top-level
class. -/
theorem extractClassFlows_length (allNames : List String) (tree : List Stmt) :
    (extractClassFlows allNames tree).1.length = tree.countP isFlowClassStmt := by
  induction tree with
  | nil => rfl
  | cons s rest ih =>
      cases s with
      | classDef cn decs body =>
          rw [extractClassFlows, List.countP_cons]
          by_cases hf : hasFlowDecorator decs
          · simp [extractClassFlow, hf, isFlowClassStmt, ih]
          · simp [extractClassFlow, hf, isFlowClassStmt, ih]
      | funcDef a n decs b =>
          simp [extractClassFlows, isFlowClassStmt, ih, List.countP_cons]
      | exprStmt e =>
          simp [extractClassFlows, isFlowClassStmt, ih, List.countP_cons]
      | ifStmt t b0 o =>
          simp [extractClassFlows, isFlowClassStmt, ih, List.countP_cons]
      | ret v =>
          simp [extractClassFlows, isFlowClassStmt, ih, List.countP_cons]
      | passStmt =>
          simp [extractClassFlows, isFlowClassStmt, ih, List.countP_cons]

/-- A file with a step-tagged method inside an untagged class and an
*untagged* top-level function of the same name: no flow container, no
step-tagged top-level function. -/
def tree7 : List Stmt :=
  [.classDef "D" []
     [.funcDef false "bar" [.name "business_step"] [.passStmt]],
   .funcDef false "bar" [] [.passStmt]]

/-- C7 counterexample: `tree7` has no flow container and no step-tagged
top-level function, yet parsing yields one Flow — the top-level
filter keys on *collected step names*, and the untagged top-level `bar`
matches the tagged method `bar` of class `D`, so an implicit Flow is
produced where the claim requires none. -/
theorem c7_counterexample :
    (parseFile tree7).1.length = 1 ∧
    tree7.countP isFlowClassStmt = 0 ∧
    tree7.all (fun s =>
      match s with
      | .funcDef _ _ decs _ => !(hasStepDecorator decs)
      | _ => true) = true := by
  refine ⟨by decide, by decide, by decide⟩

/-- C7 amended: parsing yields one Flow per *top-level* flow container,
plus exactly one implicit Flow when some top-level function's name is
among the collected step names — which holds in particular whenever a
step-tagged top-level function exists, but also when an untagged
top-level function shares its name with a tagged function elsewhere in
the file; a file with no top-level flow container and no top-level
function sharing a name with a collected step yields no Flow. -/
theorem c7_flow_count :
    (∀ tree : List Stmt,
        (parseFile tree).1.length =
          tree.countP isFlowClassStmt +
            (if (functionStepsOf ((collectAllSteps tree).map Prod.fst)
                  tree).isEmpty
             then 0 else 1)) ∧
    (∀ (tree : List Stmt) (a : Bool) (n : String) (decs : List Expr)
        (b : List Stmt),
        Stmt.funcDef a n decs b ∈ tree → hasStepDecorator decs = true →
        functionStepsOf ((collectAllSteps tree).map Prod.fst) tree ≠ []) ∧
    (∀ (tree : List Stmt) (s : Stmt),
        s ∈ functionStepsOf ((collectAllSteps tree).map Prod.fst) tree →
        s ∈ tree ∧ ∃ a n decs b, s = Stmt.funcDef a n decs b ∧
          n ∈ (collectAllSteps tree).map Prod.fst) := by
  refine ⟨?_, ?_, ?_⟩
  · intro tree
    by_cases he :
      (functionStepsOf ((collectAllSteps tree).map Prod.fst) tree).isEmpty
    · simp [parseFile, he, extractClassFlows_length]
    · simp [parseFile, he, extractClassFlows_length]
  · intro tree a n decs b hm htag
    have hmem : n ∈ (collectAllSteps tree).map Prod.fst :=
      collectTagged_mem_key (walkAll tree) [] a n decs b
        (mem_walkBFS_of_mem (stmtsSize tree) tree (Nat.le_refl _) _ hm) htag
    have hc : ((collectAllSteps tree).map Prod.fst).contains n = true :=
      (contains_eq_true_iff_mem _ n).mpr hmem
    exact List.ne_nil_of_mem
      (mem_functionStepsOf ((collectAllSteps tree).map Prod.fst) tree a n decs b
        hm hc)
  · intro tree s hs
    obtain ⟨hm, a, n, decs, b, heq, hc⟩ :=
      functionStepsOf_mem ((collectAllSteps tree).map Prod.fst) tree s hs
    exact ⟨hm, a, n, decs, b, heq, (contains_eq_true_iff_mem _ n).mp hc⟩

/-- Witness for C7 at a concrete input: a single tagged top-level
function makes the implicit Flow appear. -/
theorem c7_flow_count_witness :
    functionStepsOf
      ((collectAllSteps [Stmt.funcDef false "s1" [.name "step"] [.passStmt]]).map
        Prod.fst)
      [Stmt.funcDef false "s1" [.name "step"] [.passStmt]] ≠ [] :=
  c7_flow_count.2.1 [Stmt.funcDef false "s1" [.name "step"] [.passStmt]]
    false "s1" [.name "step"] [.passStmt] (List.mem_cons_self _ _) (by decide)

/-- A file with a step-tagged method `foo` inside an (untagged) class
and an *untagged* top-level function also named `foo`, distinguished by
its docstring. -/
def tree3 : List Stmt :=
  [.classDef "C" []
     [.funcDef false "foo" [.name "step"] [.passStmt]],
   .funcDef false "foo" [] [.exprStmt (.const (.str "top-level doc"))]]

/-- C3 counterexample: in `tree3` no top-level function carries a step
tag, yet the produced implicit Flow contains a step whose metadata
(docstring `"top-level doc"`) comes from the *untagged* top-level `foo`
— an untagged function appears as a step in a produced Flow, because
the top-level filter keys on collected step names and the class method
`foo` put that name into the collection. -/
theorem c3_counterexample :
    (parseFile tree3).1 =
      [FlowData.mk "Function Flow" "function"
        [{ name := "foo", function_name := "foo", description := "",
           docstring := some "top-level doc", calls := [] }] []
        "Flow derived from standalone function"] ∧
    tree3.all (fun s =>
      match s with
      | .funcDef _ _ decs _ => !(hasStepDecorator decs)
      | _ => true) = true := by
  refine ⟨by decide, by decide⟩

/-- C3 amended: (1) every function carrying an accepted step-tag
spelling, anywhere in the file, is collected as a step; (2) every step
of a container (class) Flow comes from a step-tagged method of that
class; (3) every step of the implicit function Flow of `parse_file`
corresponds to some step-tagged function *of the same name* occurring
in the file — so an untagged top-level function can appear as a step
exactly when it shares its name with a tagged function elsewhere. -/
theorem c3_tagged_collected_untagged_not :
    (∀ (tree : List Stmt) (s : Stmt), OccursForest s tree →
        ∀ (a : Bool) (n : String) (decs : List Expr) (b : List Stmt),
          s = Stmt.funcDef a n decs b → hasStepDecorator decs = true →
          n ∈ (collectAllSteps tree).map Prod.fst) ∧
    (∀ (cname : String) (cdecs : List Expr) (cbody : List Stmt)
        (allNames : List String) (fd : FlowData),
        (extractClassFlow cname cdecs cbody allNames).1 = some fd →
        ∀ st ∈ fd.steps, ∃ a decs b,
          Stmt.funcDef a st.function_name decs b ∈ cbody ∧
            hasStepDecorator decs = true) ∧
    (∀ (tree : List Stmt) (f : FlowData) (st : StepData),
        f ∈ (parseFile tree).1 → st ∈ f.steps →
        ∃ s, OccursForest s tree ∧ ∃ a decs b,
          s = Stmt.funcDef a st.function_name decs b ∧
            hasStepDecorator decs = true) := by
  have hclass : ∀ (cname : String) (cdecs : List Expr) (cbody : List Stmt)
      (allNames : List String) (fd : FlowData),
      (extractClassFlow cname cdecs cbody allNames).1 = some fd →
      ∀ st ∈ fd.steps, ∃ a decs b,
        Stmt.funcDef a st.function_name decs b ∈ cbody ∧
          hasStepDecorator decs = true := by
    intro cname cdecs cbody allNames fd h st hst
    by_cases hf : hasFlowDecorator cdecs
    · have h' : fd = FlowData.mk (extractFlowMeta cname cdecs).1.1 "class"
          (stepsAndEdges allNames (collectTagged cbody [])).1
          (stepsAndEdges allNames (collectTagged cbody [])).2.1
          (extractFlowMeta cname cdecs).1.2 := by
        simp [extractClassFlow, hf] at h
        exact h.symm
      subst h'
      obtain ⟨p, hp, hpn⟩ :=
        stepsAndEdges_steps_mem allNames (collectTagged cbody []) st hst
      rcases collectTagged_pairs cbody [] p hp with h0 | ⟨a, decs, b, hq, hm, htag⟩
      · cases h0
      · refine ⟨a, decs, b, ?_, htag⟩
        have : stmtFnName p.2 = p.1 := by rw [hq]; rfl
        rw [hpn, this, ← hq]
        exact hm
    · simp [extractClassFlow, hf] at h
  refine ⟨?_, hclass, ?_⟩
  · intro tree s hocc a n decs b heq htag
    subst heq
    exact collectTagged_mem_key (walkAll tree) [] a n decs b
      (mem_walkAll_of_occursForest hocc) htag
  · intro tree f st hf hst
    have hsplit : f ∈ (extractClassFlows ((collectAllSteps tree).map Prod.fst)
        tree).1 ∨
        f = (createFunctionFlow
              (functionStepsOf ((collectAllSteps tree).map Prod.fst) tree)
              ((collectAllSteps tree).map Prod.fst)).1 := by
      by_cases he :
        (functionStepsOf ((collectAllSteps tree).map Prod.fst) tree).isEmpty
      · left
        simpa [parseFile, he] using hf
      · have := hf
        simp only [parseFile] at this
        rw [if_neg he] at this
        rcases List.mem_append.mp this with h1 | h1
        · exact Or.inl h1
        · exact Or.inr (List.mem_singleton.mp h1)
    rcases hsplit with hcf | hff
    · obtain ⟨cn, decs, body, hmem, hsome⟩ := extractClassFlows_mem hcf
      obtain ⟨a, decs', b, hmeth, htag⟩ :=
        hclass cn decs body ((collectAllSteps tree).map Prod.fst) f hsome st hst
      refine ⟨Stmt.funcDef a st.function_name decs' b, ?_, a, decs', b, rfl, htag⟩
      exact ⟨Stmt.classDef cn decs body, hmem,
        Occurs.child (u := Stmt.classDef cn decs body) hmeth (Occurs.refl _)⟩
    · subst hff
      obtain ⟨p, hp, hpn⟩ := stepsAndEdges_steps_mem
        ((collectAllSteps tree).map Prod.fst)
        ((functionStepsOf ((collectAllSteps tree).map Prod.fst) tree).map
          (fun s => (stmtFnName s, s))) st hst
      obtain ⟨s0, hs0, hps⟩ := List.mem_map.mp hp
      obtain ⟨_, a, n, decs, b, hs0eq, hc⟩ :=
        functionStepsOf_mem ((collectAllSteps tree).map Prod.fst) tree s0 hs0
      have hstn : st.function_name = n := by
        rw [hpn, ← hps]
        simp only
        rw [hs0eq]
        rfl
      have hnmem : n ∈ (collectAllSteps tree).map Prod.fst :=
        (contains_eq_true_iff_mem _ n).mp hc
      rcases collectTagged_key_src (walkAll tree) [] n hnmem with h0 | ⟨a', decs', b', hm', htag'⟩
      · cases h0
      · refine ⟨Stmt.funcDef a' n decs' b', ?_, a', decs', b', by rw [hstn], htag'⟩
        exact occursForest_of_mem_walkBFS (stmtsSize tree) tree _ hm'

/-- Witness for C3 at a concrete input: the tagged function `foo` inside
class `C` of `tree3` is collected under its name. -/
theorem c3_tagged_collected_untagged_not_witness :
    "foo" ∈ (collectAllSteps tree3).map Prod.fst :=
  c3_tagged_collected_untagged_not.1 tree3
    (Stmt.funcDef false "foo" [.name "step"] [.passStmt])
    ⟨Stmt.classDef "C" [] [Stmt.funcDef false "foo" [.name "step"] [.passStmt]],
      List.mem_cons_self _ _,
      Occurs.child
        (show Stmt.funcDef false "foo" [.name "step"] [.passStmt] ∈
            stmtChildren (Stmt.classDef "C" []
              [Stmt.funcDef false "foo" [.name "step"] [.passStmt]]) from
          List.mem_cons_self _ _)
        (Occurs.refl _)⟩
    false "foo" [.name "step"] [.passStmt] rfl (by decide)

/-- A single file with a flow class `A` whose step `a` calls the
top-level step `b` of the same file. -/
def tree4 : List Stmt :=
  [.classDef "A" [.name "flow"]
     [.funcDef false "a" [.name "step"] [.exprStmt (.call 3 (.name "b") [] [])]],
   .funcDef false "b" [.name "step"] [.passStmt]]

/-- C4 counterexample: in the single-file run on `tree4` (no other file
exists, so nothing can be "resolved from another file"), the Flow of
class `A` carries an edge whose target `b` is not in that Flow's own
steps list — it names a step elsewhere in the *same* file, a case the
claim's two alternatives exclude. -/
theorem c4_counterexample :
    (∃ f ∈ (parseFile tree4).1, ∃ e ∈ f.edges,
        e.to_step ∉ f.steps.map StepData.function_name) ∧
    "b" ∈ (collectAllSteps tree4).map Prod.fst := by
  refine ⟨by decide, by decide⟩

/-- C4 amended: every edge's source is a step of the Flow's own steps
list, and every edge's target is a step name known at resolution time —
a step collected from the same file or contributed by the registry
(cross-module); same-file targets need not belong to the Flow's own
steps list. -/
theorem c4_edge_endpoints :
    ∀ (tree : List Stmt) (reg : StepRegistry),
      ∀ f ∈ (parseTreeWithRegistry tree reg).1, ∀ e ∈ f.edges,
        e.from_step ∈ f.steps.map StepData.function_name ∧
          e.to_step ∈
            combinedNames ((collectAllSteps tree).map Prod.fst) reg.allSteps := by
  intro tree reg f hf e he
  have hsplit : f ∈ (extractClassFlows
      (combinedNames ((collectAllSteps tree).map Prod.fst) reg.allSteps) tree).1 ∨
      f = (createFunctionFlow
            (functionStepsOf ((collectAllSteps tree).map Prod.fst) tree)
            (combinedNames ((collectAllSteps tree).map Prod.fst)
              reg.allSteps)).1 := by
    by_cases hemp :
      (functionStepsOf ((collectAllSteps tree).map Prod.fst) tree).isEmpty
    · left
      simpa [parseTreeWithRegistry, hemp] using hf
    · have := hf
      simp only [parseTreeWithRegistry] at this
      rw [if_neg hemp] at this
      rcases List.mem_append.mp this with h1 | h1
      · exact Or.inl h1
      · exact Or.inr (List.mem_singleton.mp h1)
  rcases hsplit with hcf | hff
  · obtain ⟨cn, decs, body, _, hsome⟩ := extractClassFlows_mem hcf
    exact extractClassFlow_edges hsome e he
  · subst hff
    obtain ⟨h1, h2⟩ := stepsAndEdges_edges
      (combinedNames ((collectAllSteps tree).map Prod.fst) reg.allSteps)
      ((functionStepsOf ((collectAllSteps tree).map Prod.fst) tree).map
        (fun s => (stmtFnName s, s))) e he
    refine ⟨?_, h2⟩
    show e.from_step ∈ (stepsAndEdges
      (combinedNames ((collectAllSteps tree).map Prod.fst) reg.allSteps)
      ((functionStepsOf ((collectAllSteps tree).map Prod.fst) tree).map
        (fun s => (stmtFnName s, s)))).1.map StepData.function_name
    rw [stepsAndEdges_steps_names]
    have hmaps : ((functionStepsOf ((collectAllSteps tree).map Prod.fst)
        tree).map (fun s => (stmtFnName s, s))).map (fun p => stmtFnName p.2) =
        ((functionStepsOf ((collectAllSteps tree).map Prod.fst) tree).map
          (fun s => (stmtFnName s, s))).map Prod.fst := by
      apply List.map_congr_left
      intro p hp
      obtain ⟨s0, _, hps⟩ := List.mem_map.mp hp
      rw [← hps]
    rw [hmaps]
    exact h1

/-- Witness for C4 at a concrete input: the edge `a → b` of the flow of
class `A` in `tree4`, extracted with an empty registry, starts at a step
of the flow and targets a known step name. -/
theorem c4_edge_endpoints_witness :
    ((FlowData.mk "A" "class"
        [{ name := "a", function_name := "a", description := "",
           docstring := none,
           calls := [{ from_step := "", to_step := "b", branch := none,
                       line_number := some 3 }] }]
        [{ from_step := "a", to_step := "b", branch := none,
           line_number := none }] "") ∈
      (parseTreeWithRegistry tree4 StepRegistry.empty).1) ∧
    ("a" ∈ [{ name := "a", function_name := "a", description := "",
              docstring := none,
              calls := [{ from_step := "", to_step := "b", branch := none,
                          line_number := some 3 }] : StepData }].map
        StepData.function_name ∧
      "b" ∈ combinedNames ((collectAllSteps tree4).map Prod.fst)
        StepRegistry.empty.allSteps) :=
  ⟨by decide,
   c4_edge_endpoints tree4 StepRegistry.empty
     (FlowData.mk "A" "class"
        [{ name := "a", function_name := "a", description := "",
           docstring := none,
           calls := [{ from_step := "", to_step := "b", branch := none,
                       line_number := some 3 }] }]
        [{ from_step := "a", to_step := "b", branch := none,
           line_number := none }] "")
     (by decide)
     { from_step := "a", to_step := "b", branch := none, line_number := none }
     (by decide)⟩

/-! ## Directory-level parse-failure handling -/

/-- Dropping unparseable files changes neither the registry built by
pass 1 nor the list of trees it hands to pass 2. -/
theorem pass1_filter_parseable :
    ∀ (files : List SrcFile) (reg : StepRegistry),
      (pass1 reg (files.filter (fun f => f.tree.isSome))).1 =
          (pass1 reg files).1 ∧
        (pass1 reg (files.filter (fun f => f.tree.isSome))).2.1 =
          (pass1 reg files).2.1 := by
  intro files
  induction files with
  | nil => intro reg; exact ⟨rfl, rfl⟩
  | cons f rest ih =>
      intro reg
      cases hft : f.tree with
      | none =>
          have hfilter : (f :: rest).filter (fun f => f.tree.isSome) =
              rest.filter (fun f => f.tree.isSome) := by
            simp [List.filter_cons, hft]
          rw [hfilter]
          have hskip : pass1 reg (f :: rest) =
              ((pass1 reg rest).1, (pass1 reg rest).2.1,
                Diag.cannotParse f.path :: (pass1 reg rest).2.2) := by
            rw [pass1, hft]
          rw [hskip]
          exact ih reg
      | some t =>
          have hfilter : (f :: rest).filter (fun f => f.tree.isSome) =
              f :: rest.filter (fun f => f.tree.isSome) := by
            simp [List.filter_cons, hft]
          rw [hfilter]
          have hstep : ∀ (l : List SrcFile),
              pass1 reg (f :: l) =
                ((pass1 (registerStepList reg f.module
                    (collectAllSteps t)).1 l).1,
                  t :: (pass1 (registerStepList reg f.module
                    (collectAllSteps t)).1 l).2.1,
                  (registerStepList reg f.module (collectAllSteps t)).2 ++
                    (pass1 (registerStepList reg f.module
                      (collectAllSteps t)).1 l).2.2) := by
            intro l
            rw [pass1, hft]
          rw [hstep rest, hstep (rest.filter (fun f => f.tree.isSome))]
          obtain ⟨h1, h2⟩ :=
            ih (registerStepList reg f.module (collectAllSteps t)).1
          exact ⟨h1, by rw [h2]⟩

/-- Every unparseable file contributes its warning diagnostic to pass 1. -/
theorem pass1_cannotParse_mem :
    ∀ (files : List SrcFile) (reg : StepRegistry) (f : SrcFile),
      f ∈ files → f.tree = none →
      Diag.cannotParse f.path ∈ (pass1 reg files).2.2 := by
  intro files
  induction files with
  | nil => intro reg f hm; cases hm
  | cons g rest ih =>
      intro reg f hm hft
      rcases List.mem_cons.mp hm with heq | htail
      · subst heq
        rw [pass1, hft]
        exact List.mem_cons_self _ _
      · cases hgt : g.tree with
        | none =>
            rw [pass1, hgt]
            exact List.mem_cons_of_mem _ (ih reg f htail hft)
        | some t =>
            rw [pass1, hgt]
            exact List.mem_append_right _
              (ih (registerStepList reg g.module (collectAllSteps t)).1 f
                htail hft)

/-- C8: during a directory run, a file whose text cannot be parsed is
skipped — the flows produced are exactly those of the run on the
parseable files alone — and a warning diagnostic naming the file is
emitted; parsing a single explicitly-given unparseable file instead
fails with an error to the caller. -/
theorem c8_parse_failure_handling :
    (∀ files : List SrcFile,
        (parseDirectory files).1 =
          (parseDirectory (files.filter (fun f => f.tree.isSome))).1) ∧
    (∀ (files : List SrcFile) (f : SrcFile), f ∈ files → f.tree = none →
        Diag.cannotParse f.path ∈ (parseDirectory files).2) ∧
    (∀ f : SrcFile, f.tree = none →
        parseFileE f = Except.error ("Cannot parse " ++ f.path)) := by
  refine ⟨?_, ?_, ?_⟩
  · intro files
    obtain ⟨h1, h2⟩ := pass1_filter_parseable files StepRegistry.empty
    simp only [parseDirectory]
    rw [h1, h2]
  · intro files f hm hft
    simp only [parseDirectory]
    exact List.mem_append_left _
      (pass1_cannotParse_mem files StepRegistry.empty f hm hft)
  · intro f hft
    rw [parseFileE, hft]

/-- Witness for C8 at a concrete input: a one-file list whose only file
fails to parse yields its warning diagnostic, and the single-file entry
point fails on the same file. -/
theorem c8_parse_failure_handling_witness :
    (Diag.cannotParse "bad.py" ∈
      (parseDirectory [{ path := "bad.py", module := "bad", tree := none }]).2) ∧
    parseFileE { path := "bad.py", module := "bad", tree := none } =
      Except.error ("Cannot parse " ++ "bad.py") :=
  ⟨c8_parse_failure_handling.2.1
    [{ path := "bad.py", module := "bad", tree := none }]
    { path := "bad.py", module := "bad", tree := none }
    (List.mem_cons_self _ _) rfl,
   c8_parse_failure_handling.2.2
    { path := "bad.py", module := "bad", tree := none } rfl⟩

end Flowdoc
